import Mathlib

/-!
Verification of the resource-resolution engine of the vaakya repository.

The Python sources are shallowly embedded here:
* `src/app/agent/operations/app_operations.py` — fuzzy app matching
  (`find_app_fuzzy`), platform discovery (`_discover_linux_apps`,
  `_discover_windows_apps`) and launching (`launch_app` and the per-platform
  launchers).
* `src/app/app_launcher/launcher.py` — the `/open` endpoint: query
  normalization, weighted semantic/lexical scoring and threshold check.
* `src/app/config/settings.py` — the numeric configuration constants.

Modelling conventions:
* Python strings are `String` / `List Char`; `str.lower`, `str.strip`,
  `str.split()` and `re` word runs are modelled character-by-character for the
  ASCII range (`Char.toLower`, `Char.isWhitespace`).
* Python float arithmetic is modelled exactly: `int(x * 0.9)` over the
  non-negative ints that occur here is `(x * 9) / 10` in `Nat`, and
  `int((a / b) * k)` is `(a * k) / b`; the launcher's float scores are `ℚ`.
* `fuzzywuzzy.fuzz.ratio` is an external library call; it is passed in as an
  explicit function parameter, constrained (where a claim needs it) by its
  documented range `0 ≤ ratio ≤ 100`.
* Effectful calls (`subprocess`, `os`) are passed in as explicit environment
  oracles; a Python exception is an `Except` error value.
* Python `dict` state (insertion-ordered, assignment keeps the original
  position of an existing key) is an association list with `dinsert`.
-/

namespace Vaakya

/-! ## Python string primitives (ASCII model) -/

/-- `str.lower`, character-wise (ASCII model). -/
def lowerL (l : List Char) : List Char := l.map Char.toLower

/-- Drop leading whitespace characters. -/
def dropWS : List Char → List Char
  | [] => []
  | c :: cs => if c.isWhitespace then dropWS cs else c :: cs

/-- `str.strip()`: drop leading and trailing whitespace. -/
def stripL (l : List Char) : List Char :=
  (dropWS ((dropWS l).reverse)).reverse

/-- `s.startswith(p)` on character lists. -/
def startsL : List Char → List Char → Bool
  | [], _ => true
  | _ :: _, [] => false
  | a :: as, b :: bs => a == b && startsL as bs

/-- Python substring containment `n in h` on character lists. -/
def inL (n : List Char) : List Char → Bool
  | [] => startsL n []
  | c :: rest => startsL n (c :: rest) || inL n rest

/-- Accumulator for `splitRuns`: `acc` is the current run, reversed. -/
def splitRunsAux (p : Char → Bool) : List Char → List Char → List (List Char)
  | acc, [] => if acc = [] then [] else [acc.reverse]
  | acc, c :: rest =>
    if p c then splitRunsAux p (c :: acc) rest
    else if acc = [] then splitRunsAux p [] rest
    else acc.reverse :: splitRunsAux p [] rest

/-- Maximal runs of characters satisfying `p`, in order. -/
def splitRuns (p : Char → Bool) (l : List Char) : List (List Char) :=
  splitRunsAux p [] l

/-- Python `str.split()` with no separator: whitespace-delimited words,
empties discarded. -/
def wordsWS (l : List Char) : List (List Char) :=
  splitRuns (fun c => !c.isWhitespace) l

/-- A `\w` regex character (ASCII model): alphanumeric or underscore. -/
def isWordChar (c : Char) : Bool := c.isAlphanum || c == '_'

/-- `re.sub(r"\s+", " ", s)`: collapse each whitespace run to one space. -/
def collapseWS : List Char → List Char
  | [] => []
  | [c] => if c.isWhitespace then [' '] else [c]
  | c :: d :: rest =>
    if c.isWhitespace && d.isWhitespace then collapseWS (d :: rest)
    else (if c.isWhitespace then ' ' else c) :: collapseWS (d :: rest)

/-! ## Configuration constants (`src/app/config/settings.py`,
`AppOperationsSettings`) -/

def MAX_APPS_LIMIT : Nat := 50
def FUZZY_THRESHOLD : Nat := 40
def SHORT_APP_NAME_THRESHOLD : Nat := 6
def MIN_WORD_LENGTH_FOR_PARTIAL_MATCH : Nat := 3
def FUZZY_MATCH_THRESHOLD : Nat := 70
def BONUS_APP_NAME_LENGTH : Nat := 15
def PENALTY_APP_NAME_LENGTH : Nat := 30
def SKIP_EXECUTABLES : List String := ["systemd", "dbus", "update", "install", "config"]

/-! ## `AppOperations.find_app_fuzzy`
(`src/app/agent/operations/app_operations.py` lines 233–333).

`fr` stands for the external `fuzz.ratio`; `qL` is the pre-computed
`query.lower().strip()` of the loop. -/

/-- `word_matches` of the Priority-7 loop (lines 288–294): query words that
are exact words of the app name. -/
def wmCount (qWords aWords : List (List Char)) : Nat :=
  (qWords.filter (fun w => w ∈ aWords)).length

/-- `partial_matches` of the Priority-7 loop (lines 295–304): non-exact query
words that prefix an app word, or extend an app word of length at least
`MIN_WORD_LENGTH_FOR_PARTIAL_MATCH`. -/
def pmCount (qWords aWords : List (List Char)) : Nat :=
  (qWords.filter (fun w => w ∉ aWords ∧
    (aWords.any (fun aw => startsL w aw) ||
     aWords.any (fun aw => MIN_WORD_LENGTH_FOR_PARTIAL_MATCH ≤ aw.length && startsL aw w)))).length

/-- The Priority-7 word/fuzzy branch (lines 287–316). -/
def wordBranch (fr : List Char → List Char → Nat) (qL aL : List Char) : Nat :=
  if 0 < wmCount (wordsWS qL) (wordsWS aL) then
    600 + wmCount (wordsWS qL) (wordsWS aL) * 100 + pmCount (wordsWS qL) (wordsWS aL) * 25
  else if 0 < pmCount (wordsWS qL) (wordsWS aL) then
    400 + pmCount (wordsWS qL) (wordsWS aL) * 50
  else if FUZZY_MATCH_THRESHOLD ≤ fr qL aL then fr qL aL + 200
  else 0

/-- The priority-chain base score of one app for one query, before the
short-name bonus and long-name penalty (lines 256–316). -/
def baseScore (fr : List Char → List Char → Nat) (qL aL : List Char) : Nat :=
  if qL = aL then 1000
  else if qL ∈ wordsWS aL then 950
  else if startsL qL aL then 900 + qL.length * 50 / aL.length
  else if (wordsWS aL).any (fun w => startsL qL w) then 850
  else if aL.length ≤ SHORT_APP_NAME_THRESHOLD ∧ inL aL qL then 800
  else if inL qL aL then 700 + qL.length * 100 / aL.length
  else wordBranch fr qL aL

/-- Short-name bonus (lines 318–323): `+10` for a positive score on a name of
length at most `BONUS_APP_NAME_LENGTH`. -/
def bonused (b : Nat) (len : Nat) : Nat :=
  if 0 < b ∧ len ≤ BONUS_APP_NAME_LENGTH then b + 10 else b

/-- Bonus then long-name penalty (lines 318–327): `int(score * 0.9)` for a
name longer than `PENALTY_APP_NAME_LENGTH`. -/
def bonusPenalty (b : Nat) (len : Nat) : Nat :=
  if PENALTY_APP_NAME_LENGTH < len then bonused b len * 9 / 10 else bonused b len

/-- The full per-app score of the `find_app_fuzzy` loop body. -/
def appScore (fr : List Char → List Char → Nat) (qL : List Char) (app : String) : Nat :=
  bonusPenalty (baseScore fr qL (stripL (lowerL app.data)))
    (stripL (lowerL app.data)).length

/-- The best-match scan (lines 246–331): strictly better accepted scores
replace the running best, so the first app attaining the final best score
wins. -/
def scanApps (f : String → Nat) (threshold : Nat) :
    List String → Option String → Nat → Option String × Nat
  | [], best, bs => (best, bs)
  | a :: rest, best, bs =>
    if f a > bs ∧ f a ≥ threshold then scanApps f threshold rest (some a) (f a)
    else scanApps f threshold rest best bs

/-- `find_app_fuzzy(query, threshold)` over an explicit post-discovery app
cache (the keys of `self._app_cache`): `None` for an empty cache, otherwise
the scan result. -/
def find_app_fuzzy (fr : List Char → List Char → Nat) (cache : List String)
    (query : String) (threshold : Nat) : Option String :=
  if cache = [] then none
  else (scanApps (appScore fr (stripL (lowerL query.data))) threshold cache none 0).1

/-! ## The `/open` endpoint (`src/app/app_launcher/launcher.py`)

The sentence-transformer model is external: the cosine similarities of the
query embedding against the alias (candidate) embeddings are passed in as the
list `cands` of `(candidate_to_item index, similarity)` pairs, exactly the
data the endpoint consumes at lines 193–201. -/

/-- `SEMANTIC_THRESHOLD` (launcher.py line 16). -/
def SEMANTIC_THRESHOLD : ℚ := 30 / 100

/-- The `WEIGHTS` table (launcher.py lines 17–22). -/
def wSemantic : ℚ := 65 / 100
def wJaccard : ℚ := 20 / 100
def wSubstring : ℚ := 10 / 100
def wExact : ℚ := 5 / 100

/-- `normalize_name`: lowercase, strip, collapse whitespace runs
(launcher.py lines 27–33). -/
def normalize_name (s : String) : String :=
  String.mk (collapseWS (stripL (lowerL s.data)))

/-- `tokens_of`: the `\w+` word runs of the normalized text
(launcher.py lines 35–37).  Python returns a `set`; set cardinalities are
recovered below by deduplication, so the run list is kept in order here. -/
def tokens_of (s : String) : List (List Char) :=
  splitRuns isWordChar (normalize_name s).data

/-- One indexed item of the launcher (launcher.py lines 93–172): `tokens` is
always `tokens_of name` at build time, so it is recomputed from `name` here. -/
structure Item where
  name : String
  path : String
  kind : String
  exe_basename : String
deriving DecidableEq

/-- Python `len(set(a) & set(b))` for token lists. -/
def interCard (a b : List (List Char)) : Nat :=
  (a.dedup.filter (fun t => t ∈ b)).length

/-- Python `len(set(a) | set(b))` for token lists. -/
def unionCard (a b : List (List Char)) : Nat :=
  a.dedup.length + (b.dedup.filter (fun t => t ∉ a)).length

/-- The Jaccard token overlap of a query and an item
(launcher.py lines 209–210). -/
def jaccardQ (query : String) (it : Item) : ℚ :=
  if 0 < unionCard (tokens_of it.name) (tokens_of query) then
    (interCard (tokens_of it.name) (tokens_of query) : ℚ) /
      (unionCard (tokens_of it.name) (tokens_of query) : ℚ)
  else 0

/-- The substring indicator (launcher.py line 212). -/
def substringInd (query : String) (it : Item) : ℚ :=
  if inL query.data it.name.data || inL query.data it.exe_basename.data then 1 else 0

/-- The exact-equality indicator (launcher.py line 213). -/
def exactInd (query : String) (it : Item) : ℚ :=
  if query = it.name ∨ query = it.exe_basename then 1 else 0

/-- The combined weighted score of one item (launcher.py lines 206–221),
given that item's `sem_max` entry; a negative `sem_max` contributes 0
(line 207). -/
def combinedScore (semMax : ℚ) (query : String) (it : Item) : ℚ :=
  wSemantic * (if 0 ≤ semMax then semMax else 0) + wJaccard * jaccardQ query it +
    wSubstring * substringInd query it + wExact * exactInd query it

/-- The per-item max-similarity accumulation (launcher.py lines 196–201):
start every cell at `-1`, raise cell `item_idx` whenever a candidate for that
item scores strictly higher. -/
def itemSemMax (nItems : Nat) (cands : List (Nat × ℚ)) : List ℚ :=
  cands.foldl
    (fun arr c => if c.2 > arr.getD c.1 (-1) then arr.set c.1 c.2 else arr)
    (List.replicate nItems (-1))

/-- The `combined_scores` list of the endpoint (launcher.py lines 204–221). -/
def itemScores (items : List Item) (cands : List (Nat × ℚ)) (query : String) : List ℚ :=
  (items.zip (itemSemMax items.length cands)).map
    (fun p => combinedScore p.2 query p.1)

/-- `np.argmax` step: first index of the maximum. -/
def argmaxAux : List ℚ → Nat → Nat → ℚ → Nat × ℚ
  | [], _, bi, bv => (bi, bv)
  | x :: rest, i, bi, bv =>
    if x > bv then argmaxAux rest (i + 1) i x else argmaxAux rest (i + 1) bi bv

/-- The decision portion of the `/open` endpoint `get_path`
(launcher.py lines 185–228): empty normalized query → 400; `np.argmax` over
the combined scores (a `ValueError`, surfaced as HTTP 500, on an empty item
list); best score below `SEMANTIC_THRESHOLD` → 404; otherwise the accepted
`(best_idx, best_score)`. -/
def openSelect (items : List Item) (cands : List (Nat × ℚ)) (text : String) :
    Except (Nat × String) (Nat × ℚ) :=
  if normalize_name text = "" then .error (400, "Empty request")
  else
    match itemScores items cands (normalize_name text) with
    | [] => .error (500, "ValueError")
    | s :: rest =>
      if (argmaxAux rest 1 0 s).2 < SEMANTIC_THRESHOLD then
        .error (404, "No matching app or folder found")
      else .ok (argmaxAux rest 1 0 s)

/-- The maximum of a non-empty rational list (`[]` is irrelevant). -/
def maxQ : List ℚ → ℚ
  | [] => 0
  | x :: xs => xs.foldl max x

/-- The per-item score formula exactly as claim C4 words it: the semantic
term is the raw maximum cosine similarity of the item's aliases, NOT floored
at zero. -/
def claimScore (sims : List ℚ) (query : String) (it : Item) : ℚ :=
  wSemantic * maxQ sims + wJaccard * jaccardQ query it +
    wSubstring * substringInd query it + wExact * exactInd query it

/-- The amended per-item score formula: as `claimScore`, but the semantic
maximum is floored at zero, matching launcher.py line 207. -/
def claimScoreClipped (sims : List ℚ) (query : String) (it : Item) : ℚ :=
  wSemantic * max (maxQ sims) 0 + wJaccard * jaccardQ query it +
    wSubstring * substringInd query it + wExact * exactInd query it

/-! ## Discovery (`app_operations.py`)

The filesystem and PowerShell are external; each scan source's raw output is
passed in explicitly.  A source that failed, timed out or returned a non-zero
exit contributes the empty list (its `try`/`except` swallows the error). -/

/-- Python `dict` assignment `m[k] = v` on an insertion-ordered association
list: an existing key keeps its position and gets the new value, a new key is
appended. -/
def dinsert (m : List (String × String)) (k v : String) : List (String × String) :=
  if m.any (fun p => p.1 = k) then m.map (fun p => if p.1 = k then (k, v) else p)
  else m ++ [(k, v)]

/-- Python `dict` lookup `m[k]` / `k in m`. -/
def dlookup (m : List (String × String)) (k : String) : Option String :=
  (m.find? (fun p => p.1 = k)).map (fun p => p.2)

/-- `str.lower()` on `String`. -/
def lowerStr (s : String) : String := String.mk (lowerL s.data)

/-- `str.strip()` on `String`. -/
def stripStr (s : String) : String := String.mk (stripL s.data)

/-- `_discover_windows_apps` Method 1, `Get-StartApps`
(app_operations.py lines 93–126): entries are the parsed `(Name, AppID)`
pairs; an absent or falsy JSON field is the empty string. -/
def winMethod1 (entries : List (String × String)) (apps : List (String × String)) :
    List (String × String) :=
  entries.foldl
    (fun acc e =>
      if e.1 ≠ "" ∧ e.2 ≠ "" then
        let app_name := stripStr e.1
        let app_id := stripStr e.2
        if app_name ≠ "" ∧ 1 < app_name.length then
          dinsert acc (lowerStr app_name) ("appid:" ++ app_id)
        else acc
      else acc)
    apps

/-- `full_name.split(".")[-1] if "." in full_name else full_name`
(app_operations.py lines 150–153). -/
def lastDotComponent (s : String) : String :=
  if s.data.contains '.' then (s.splitOn ".").getLastD s else s

/-- `_discover_windows_apps` Method 2, `Get-AppxPackage`
(app_operations.py lines 128–176): entries are `(Name, PackageFamilyName)`
pairs.  Note the unconditional assignment: this structured source may
overwrite names found by Method 1. -/
def winMethod2 (entries : List (String × String)) (apps : List (String × String)) :
    List (String × String) :=
  entries.foldl
    (fun acc e =>
      if e.1 ≠ "" ∧ e.2 ≠ "" then
        let app_name := lastDotComponent e.1
        if app_name ≠ "" ∧ 1 < app_name.length then
          dinsert acc (lowerStr app_name) ("package:" ++ e.2)
        else acc
      else acc)
    apps

/-- `_discover_windows_apps` Method 3, Start Menu `.lnk` fallback
(app_operations.py lines 178–208): entries are `(stem, full path)` pairs;
a name already present is left untouched (`app_name.lower() not in apps`). -/
def winMethod3 (entries : List (String × String)) (apps : List (String × String)) :
    List (String × String) :=
  entries.foldl
    (fun acc e =>
      if e.1 ≠ "" ∧ 1 < e.1.length ∧ ¬ acc.any (fun p => p.1 = lowerStr e.1) then
        acc ++ [(lowerStr e.1, e.2)]
      else acc)
    apps

/-- The whole Windows discovery pass (app_operations.py lines 89–211):
Method 1, then Method 2, then the shortcut fallback. -/
def discover_windows_apps (m1 m2 m3 : List (String × String)) : List (String × String) :=
  winMethod3 m3 (winMethod2 m2 (winMethod1 m1 []))

/-- `_discover_linux_apps` desktop-entry phase
(app_operations.py lines 51–67): each scanned directory contributes its
listing (an unreadable or missing directory contributes nothing and is simply
absent from `dirs`). -/
def linuxDesktopPhase (dirs : List (String × List String)) : List (String × String) :=
  dirs.foldl
    (fun acc d =>
      d.2.foldl
        (fun acc2 item =>
          if item.endsWith ".desktop" then
            let app_name := (item.replace ".desktop" "").replace "-" " "
            dinsert acc2 (lowerStr app_name) (d.1 ++ "/" ++ item)
          else acc2)
        acc)
    []

/-- `_discover_linux_apps` bin-scan phase (app_operations.py lines 69–87):
each bin directory lists `(name, is-executable)` entries; an entry is added
only if executable, not matching the deny-list, and only while the map holds
fewer than `MAX_APPS_LIMIT` entries. -/
def linuxBinPhase (bins : List (String × List (String × Bool))) (apps : List (String × String)) :
    List (String × String) :=
  bins.foldl
    (fun acc d =>
      d.2.foldl
        (fun acc2 e =>
          if e.2 ∧ ¬ SKIP_EXECUTABLES.any (fun skip => inL skip.data (lowerStr e.1).data) ∧
              acc2.length < MAX_APPS_LIMIT then
            dinsert acc2 (lowerStr e.1) (d.1 ++ "/" ++ e.1)
          else acc2)
        acc)
    apps

/-- The whole Linux discovery pass (app_operations.py lines 47–87). -/
def discover_linux_apps (dirs : List (String × List String))
    (bins : List (String × List (String × Bool))) : List (String × String) :=
  linuxBinPhase bins (linuxDesktopPhase dirs)

/-! ## Launching (`app_operations.py` lines 335–509)

`subprocess` and the filesystem are oracles; a raised Python exception is an
`Except.error`. -/

/-- The exception classes the launch code distinguishes. -/
inductive PyExc where
  | timeoutExpired
  | osError
  | other
deriving DecidableEq

/-- `_launch_macos_app` (lines 335–352): one `open -a` run; only
`TimeoutExpired` is caught, any other exception propagates. -/
def launch_macos_app (run : List String → Except PyExc Int) (app_name : String) :
    Except PyExc Bool :=
  match run ["open", "-a", app_name] with
  | .ok rc => .ok (rc == 0)
  | .error .timeoutExpired => .ok false
  | .error e => .error e

/-- The `_launch_linux_app` command loop (lines 362–375): first zero exit
wins; `TimeoutExpired` and `OSError` continue the loop, anything else
propagates; an exhausted list is `False`. -/
def launch_linux_cmds (run : List String → Except PyExc Int) :
    List (List String) → Except PyExc Bool
  | [] => .ok false
  | c :: rest =>
    match run c with
    | .ok rc => if rc == 0 then .ok true else launch_linux_cmds run rest
    | .error .timeoutExpired => launch_linux_cmds run rest
    | .error .osError => launch_linux_cmds run rest
    | .error e => .error e

/-- `_launch_linux_app` (lines 354–378). -/
def launch_linux_app (run : List String → Except PyExc Int) (app_name : String) :
    Except PyExc Bool :=
  launch_linux_cmds run [["gtk-launch", app_name], [app_name], ["nohup", app_name]]

/-- The external-world oracle of `_launch_windows_app`. -/
structure WinEnv where
  psRun : String → Except PyExc Int
  popen : List String → Except PyExc Unit
  pathExists : String → Bool
  isDir : String → Bool
  rglobExe : String → List String

/-- The Method-5 loop of `_launch_windows_app` (lines 458–463): try each
found executable, swallowing failures; falls through on exhaustion. -/
def winTryExes (env : WinEnv) : List String → Bool
  | [] => false
  | f :: rest =>
    match env.popen [f] with
    | .ok _ => true
    | .error _ => winTryExes env rest

/-- Method 6, the explorer fallback (lines 465–468): its exception escapes to
the outer handler. -/
def winExplorerFallback (env : WinEnv) (app_path : String) : Except PyExc Bool :=
  match env.popen ["explorer", app_path] with
  | .ok _ => .ok true
  | .error e => .error e

/-- The `appid:` branch of `_launch_windows_app` (lines 384–418): a direct
`C:\` path or a PowerShell `shell:appsFolder` activation, each failure caught
and falling through to the explorer `shell:appsFolder` attempt; `none` means
the branch fell through to Method 6. -/
def winAppIdBranch (env : WinEnv) (app_id : String) : Option Bool :=
  let first :=
    if app_id.startsWith "C:\\" ∨ app_id.startsWith "c:\\" then
      match env.popen [app_id] with
      | .ok _ => some true
      | .error _ => none
    else
      match env.psRun ("Start-Process \"shell:appsFolder\\" ++ app_id ++ "\"") with
      | .ok rc => some (rc == 0)
      | .error _ => none
  match first with
  | some b => some b
  | none =>
    match env.popen ["explorer", "shell:appsFolder\\" ++ app_id] with
    | .ok _ => some true
    | .error _ => none

/-- The body of `_launch_windows_app` inside its outer `try` (lines 382–468);
an `Except.error` is an exception reaching the outer handler. -/
def launch_windows_inner (env : WinEnv) (app_path : String) : Except PyExc Bool :=
  if app_path.startsWith "appid:" then
    match winAppIdBranch env (app_path.drop 6) with
    | some b => .ok b
    | none => winExplorerFallback env app_path
  else if app_path.startsWith "package:" then
    match env.psRun ("Start-Process \"shell:appsFolder\\" ++ app_path.drop 8 ++ "!App\"") with
    | .ok rc => .ok (rc == 0)
    | .error _ => winExplorerFallback env app_path
  else if app_path.endsWith ".exe" ∧ env.pathExists app_path then
    match env.popen [app_path] with
    | .ok _ => .ok true
    | .error e => .error e
  else if app_path.endsWith ".lnk" ∧ env.pathExists app_path then
    match env.popen ["cmd", "/c", "start", "", "\"" ++ app_path ++ "\""] with
    | .ok _ => .ok true
    | .error e => .error e
  else if env.pathExists app_path ∧ env.isDir app_path then
    if winTryExes env (env.rglobExe app_path) then .ok true
    else winExplorerFallback env app_path
  else winExplorerFallback env app_path

/-- `_launch_windows_app` (lines 380–472): the outer `except` maps any
escaped exception to `False`. -/
def launch_windows_app (env : WinEnv) (app_path : String) : Bool :=
  match launch_windows_inner env app_path with
  | .ok b => b
  | .error _ => false

/-- The process environment of `launch_app`: the platform string, the
post-discovery app cache, the external fuzz ratio and the per-platform
subprocess oracles. -/
structure LaunchEnv where
  system : String
  cache : List (String × String)
  fr : List Char → List Char → Nat
  macRun : List String → Except PyExc Int
  linuxRun : List String → Except PyExc Int
  win : WinEnv

/-- The per-platform dispatch shared by both branches of `launch_app`
(lines 484–492 and 497–505): `byName` is passed to the macOS/Linux launchers,
`byPath` to the Windows one. -/
def launchDispatch (env : LaunchEnv) (byName byPath : String) : Except PyExc Bool :=
  if env.system = "darwin" then launch_macos_app env.macRun byName
  else if env.system = "linux" then launch_linux_app env.linuxRun byName
  else if env.system = "windows" then .ok (launch_windows_app env.win byPath)
  else .ok false

/-- The body of `launch_app` inside its `try` (lines 476–505): fuzzy-match
the name against the cache (default threshold); a truthy match with a
non-empty cache launches the cached descriptor, otherwise the raw name is
tried directly.  A failed cache lookup would be a `KeyError`. -/
def launch_app_inner (env : LaunchEnv) (app_name : String) : Except PyExc Bool :=
  let matched := find_app_fuzzy env.fr (env.cache.map (fun p => p.1)) app_name FUZZY_THRESHOLD
  match matched with
  | some m =>
    if m ≠ "" ∧ env.cache ≠ [] then
      match dlookup env.cache m with
      | some app_path => launchDispatch env m app_path
      | none => .error .other
    else launchDispatch env app_name app_name
  | none => launchDispatch env app_name app_name

/-- `launch_app` (lines 474–509): the outer `except` maps any exception to
`False`. -/
def launch_app (env : LaunchEnv) (app_name : String) : Bool :=
  match launch_app_inner env app_name with
  | .ok b => b
  | .error _ => false

/-! ## Concrete instances used to exercise the theorems -/

/-- A trivial stand-in for the external fuzz ratio (any function in
`[0, 100]` is admissible); used only to evaluate concrete runs. -/
def fr0 : List Char → List Char → Nat := fun _ _ => 0

/-- A Windows oracle in which every external call raises. -/
def winEnvFail : WinEnv :=
  ⟨fun _ => Except.error PyExc.other, fun _ => Except.error PyExc.other,
   fun _ => false, fun _ => false, fun _ => []⟩

/-- A Linux process environment with an empty app cache in which every
subprocess call raises `OSError`. -/
def envFail : LaunchEnv :=
  ⟨"linux", [], fr0, fun _ => Except.error PyExc.osError,
   fun _ => Except.error PyExc.osError, winEnvFail⟩

/-! ## Lemmas about the string primitives -/

theorem startsL_length {p s : List Char} (h : startsL p s = true) : p.length ≤ s.length := by
  induction p generalizing s with
  | nil => simp
  | cons a as ih =>
    cases s with
    | nil => simp [startsL] at h
    | cons b bs =>
      simp only [startsL, Bool.and_eq_true] at h
      simpa using ih h.2

theorem startsL_eq_of_length {p s : List Char} (h : startsL p s = true)
    (hl : s.length ≤ p.length) : p = s := by
  induction p generalizing s with
  | nil => cases s with
    | nil => rfl
    | cons b bs => simp at hl
  | cons a as ih =>
    cases s with
    | nil => simp [startsL] at h
    | cons b bs =>
      simp only [startsL, Bool.and_eq_true, beq_iff_eq] at h
      simp only [List.length_cons, Nat.succ_le_succ_iff] at hl
      rw [h.1, ih h.2 hl]

theorem startsL_lt_of_ne {p s : List Char} (h : startsL p s = true) (hne : p ≠ s) :
    p.length < s.length := by
  rcases Nat.lt_or_ge p.length s.length with hlt | hge
  · exact hlt
  · exact absurd (startsL_eq_of_length h hge) hne

theorem startsL_nil (s : List Char) : startsL [] s = true := by cases s <;> rfl

theorem inL_length {n h : List Char} (hin : inL n h = true) : n.length ≤ h.length := by
  induction h with
  | nil =>
    simp only [inL] at hin
    have := startsL_length hin
    simpa using this
  | cons c rest ih =>
    simp only [inL, Bool.or_eq_true] at hin
    rcases hin with h1 | h2
    · exact startsL_length h1
    · exact Nat.le_trans (ih h2) (Nat.le_succ _)

theorem inL_lt_of_ne {n h : List Char} (hin : inL n h = true) (hne : n ≠ h) :
    n.length < h.length := by
  induction h with
  | nil =>
    simp only [inL] at hin
    have h0 : n.length ≤ 0 := by simpa using startsL_length hin
    exact absurd (List.length_eq_zero.mp (Nat.le_zero.mp h0)) hne
  | cons c rest ih =>
    simp only [inL, Bool.or_eq_true] at hin
    rcases hin with h1 | h2
    · exact startsL_lt_of_ne h1 hne
    · exact Nat.lt_of_le_of_lt (inL_length h2) (by simp)

theorem splitRunsAux_mem_ne_nil {p : Char → Bool} {w : List Char} :
    ∀ {l acc : List Char}, w ∈ splitRunsAux p acc l → w ≠ [] := by
  intro l
  induction l with
  | nil =>
    intro acc hw
    simp only [splitRunsAux] at hw
    split at hw
    · simp at hw
    · next hacc =>
      simp only [List.mem_singleton] at hw
      subst hw
      simpa using hacc
  | cons c rest ih =>
    intro acc hw
    simp only [splitRunsAux] at hw
    split at hw
    · exact ih hw
    · split at hw
      · exact ih hw
      · next hacc =>
        rcases List.mem_cons.mp hw with h1 | h2
        · subst h1; simpa using hacc
        · exact ih h2

theorem splitRunsAux_mem_length {p : Char → Bool} {w : List Char} :
    ∀ {l acc : List Char}, w ∈ splitRunsAux p acc l → w.length ≤ acc.length + l.length := by
  intro l
  induction l with
  | nil =>
    intro acc hw
    simp only [splitRunsAux] at hw
    split at hw
    · simp at hw
    · simp only [List.mem_singleton] at hw
      subst hw
      simp
  | cons c rest ih =>
    intro acc hw
    simp only [splitRunsAux] at hw
    split at hw
    · have := ih hw
      simp only [List.length_cons] at this ⊢
      omega
    · split at hw
      · have := ih hw
        simp only [List.length_nil] at this
        simp only [List.length_cons]
        omega
      · rcases List.mem_cons.mp hw with h1 | h2
        · subst h1
          simp only [List.length_reverse, List.length_cons]
          omega
        · have := ih h2
          simp only [List.length_nil] at this
          simp only [List.length_cons]
          omega

theorem wordsWS_mem_length {w l : List Char} (h : w ∈ wordsWS l) : w.length ≤ l.length := by
  have := splitRunsAux_mem_length (p := fun c => !c.isWhitespace) h
  simpa using this

theorem wordsWS_mem_ne_nil {w l : List Char} (h : w ∈ wordsWS l) : w ≠ [] :=
  splitRunsAux_mem_ne_nil h

theorem splitRunsAux_all {p : Char → Bool} :
    ∀ {l acc : List Char}, (∀ c ∈ l, p c = true) →
      splitRunsAux p acc l = if acc = [] ∧ l = [] then [] else [acc.reverse ++ l] := by
  intro l
  induction l with
  | nil =>
    intro acc _
    by_cases h : acc = [] <;> simp [splitRunsAux, h]
  | cons c rest ih =>
    intro acc hall
    have hc : p c = true := hall c (by simp)
    simp only [splitRunsAux, hc, if_true]
    rw [ih (fun x hx => hall x (by simp [hx]))]
    have : ¬(c :: acc = [] ∧ rest = []) := by simp
    rw [if_neg this, if_neg (by simp)]
    simp

theorem wordsWS_single {l : List Char} (hne : l ≠ [])
    (hall : ∀ c ∈ l, c.isWhitespace = false) : wordsWS l = [l] := by
  unfold wordsWS splitRuns
  rw [splitRunsAux_all (fun c hc => by simp [hall c hc])]
  simp [hne]

theorem dropWS_all {l : List Char} (h : ∀ c ∈ l, c.isWhitespace = true) : dropWS l = [] := by
  induction l with
  | nil => rfl
  | cons c rest ih =>
    simp only [dropWS, h c (by simp), if_true]
    exact ih (fun x hx => h x (by simp [hx]))

theorem stripL_all_ws {l : List Char} (h : ∀ c ∈ l, c.isWhitespace = true) :
    stripL l = [] := by
  unfold stripL
  rw [dropWS_all h]
  simp [dropWS]

theorem toLower_isWhitespace {c : Char} (h : c.isWhitespace = true) :
    (Char.toLower c).isWhitespace = true := by
  simp only [Char.isWhitespace, Bool.or_eq_true, decide_eq_true_eq] at h
  rcases h with ((h | h) | h) | h <;> subst h <;> decide

theorem stripL_lowerL_all_ws {l : List Char} (h : ∀ c ∈ l, c.isWhitespace = true) :
    stripL (lowerL l) = [] := by
  apply stripL_all_ws
  intro c hc
  simp only [lowerL, List.mem_map] at hc
  obtain ⟨a, ha, rfl⟩ := hc
  exact toLower_isWhitespace (h a ha)

/-! ## Lemmas about `bonusPenalty` -/

theorem bonusPenalty_le_add_ten (b n : Nat) : bonusPenalty b n ≤ b + 10 := by
  unfold bonusPenalty bonused
  split_ifs <;> omega

theorem bonusPenalty_no_bonus {b n : Nat} (h : BONUS_APP_NAME_LENGTH < n) :
    bonusPenalty b n ≤ b := by
  unfold bonusPenalty bonused
  unfold BONUS_APP_NAME_LENGTH at h
  unfold BONUS_APP_NAME_LENGTH PENALTY_APP_NAME_LENGTH
  split_ifs <;> omega

theorem bonusPenalty_penalty {b n : Nat} (h : PENALTY_APP_NAME_LENGTH < n) :
    bonusPenalty b n = b * 9 / 10 := by
  unfold PENALTY_APP_NAME_LENGTH at h
  unfold bonusPenalty bonused BONUS_APP_NAME_LENGTH PENALTY_APP_NAME_LENGTH
  split_ifs <;> omega

theorem bonusPenalty_exact_ge (n : Nat) : 900 ≤ bonusPenalty 1000 n := by
  unfold bonusPenalty bonused BONUS_APP_NAME_LENGTH PENALTY_APP_NAME_LENGTH
  split_ifs <;> omega

theorem bonusPenalty_exact_cases (n : Nat) :
    bonusPenalty 1000 n = if n ≤ 15 then 1010 else if n ≤ 30 then 1000 else 900 := by
  unfold bonusPenalty bonused BONUS_APP_NAME_LENGTH PENALTY_APP_NAME_LENGTH
  split_ifs <;> omega

/-- Bound for the high-priority branches: any base score at most 950 on an
app name at least as long as the query stays strictly below the exact-match
score. -/
theorem bonusPenalty_lt_exact_big {b n q : Nat} (hb : b ≤ 950) (hqn : q ≤ n) :
    bonusPenalty b n < bonusPenalty 1000 q := by
  rw [bonusPenalty_exact_cases]
  by_cases h15 : q ≤ 15
  · rw [if_pos h15]
    exact Nat.lt_of_le_of_lt (bonusPenalty_le_add_ten b n) (by omega)
  · rw [if_neg h15]
    have hn15 : BONUS_APP_NAME_LENGTH < n := by unfold BONUS_APP_NAME_LENGTH; omega
    by_cases h30 : q ≤ 30
    · rw [if_pos h30]
      exact Nat.lt_of_le_of_lt (bonusPenalty_no_bonus hn15) (by omega)
    · rw [if_neg h30]
      have hn30 : PENALTY_APP_NAME_LENGTH < n := by unfold PENALTY_APP_NAME_LENGTH; omega
      rw [bonusPenalty_penalty hn30]
      have : b * 9 / 10 ≤ 950 * 9 / 10 :=
        Nat.div_le_div_right (Nat.mul_le_mul_right 9 hb)
      omega

/-- Bound for the low-priority branches: any base score at most 840 stays
strictly below the exact-match score, whatever the lengths. -/
theorem bonusPenalty_lt_exact_small {b n q : Nat} (hb : b ≤ 840) :
    bonusPenalty b n < bonusPenalty 1000 q := by
  have h1 := bonusPenalty_le_add_ten b n
  have h2 := bonusPenalty_exact_ge q
  omega

/-! ## Lemmas about the best-match scan -/

theorem scanApps_stay {f : String → Nat} {t : Nat} {e : Nat} :
    ∀ {l : List String} {m : Option String}, (∀ a ∈ l, f a ≤ e) →
      scanApps f t l m e = (m, e) := by
  intro l
  induction l with
  | nil => intro m _; rfl
  | cons a rest ih =>
    intro m hle
    have ha : ¬(f a > e ∧ f a ≥ t) := by
      have := hle a (by simp)
      omega
    simp only [scanApps, if_neg ha]
    exact ih (fun x hx => hle x (by simp [hx]))

theorem scanApps_skip_all {f : String → Nat} {t : Nat} :
    ∀ {l : List String} {m : Option String} {bs : Nat}, (∀ a ∈ l, f a < t) →
      scanApps f t l m bs = (m, bs) := by
  intro l
  induction l with
  | nil => intro m bs _; rfl
  | cons a rest ih =>
    intro m bs hlt
    have ha : ¬(f a > bs ∧ f a ≥ t) := by
      have := hlt a (by simp)
      omega
    simp only [scanApps, if_neg ha]
    exact ih (fun x hx => hlt x (by simp [hx]))

theorem scanApps_reach {f : String → Nat} {t : Nat} {e : Nat} :
    ∀ {l : List String} {m : Option String} {v : Nat},
      (∀ a ∈ l, f a ≤ e) → t ≤ e → v < e → (∃ a ∈ l, f a = e) →
      ∃ a ∈ l, f a = e ∧ scanApps f t l m v = (some a, e) := by
  intro l
  induction l with
  | nil =>
    intro m v _ _ _ hex
    simp at hex
  | cons a rest ih =>
    intro m v hle ht hv hex
    by_cases hae : f a = e
    · refine ⟨a, List.mem_cons_self a rest, hae, ?_⟩
      have hcond : f a > v ∧ f a ≥ t := by omega
      simp only [scanApps]
      rw [if_pos hcond, hae]
      exact scanApps_stay (fun x hx => hle x (List.mem_cons_of_mem a hx))
    · have hrest : ∃ x ∈ rest, f x = e := by
        rcases hex with ⟨x, hx, hfx⟩
        rcases List.mem_cons.mp hx with rfl | hx'
        · exact absurd hfx hae
        · exact ⟨x, hx', hfx⟩
      have hlt : f a < e := Nat.lt_of_le_of_ne (hle a (by simp)) hae
      simp only [scanApps]
      split
      · obtain ⟨x, hx, hfx, hres⟩ :=
          ih (m := some a) (v := f a) (fun y hy => hle y (by simp [hy])) ht hlt hrest
        exact ⟨x, by simp [hx], hfx, hres⟩
      · obtain ⟨x, hx, hfx, hres⟩ :=
          ih (m := m) (v := v) (fun y hy => hle y (by simp [hy])) ht hv hrest
        exact ⟨x, by simp [hx], hfx, hres⟩

theorem scanApps_first {f : String → Nat} {t : Nat} {a : String} :
    ∀ {l1 l2 : List String} {m : Option String} {bs : Nat},
      (∀ x ∈ l1, f x < f a) → (∀ x ∈ l2, f x ≤ f a) → t ≤ f a → bs < f a →
      scanApps f t (l1 ++ a :: l2) m bs = (some a, f a) := by
  intro l1
  induction l1 with
  | nil =>
    intro l2 m bs _ hle ht hbs
    have hcond : f a > bs ∧ f a ≥ t := by omega
    simp only [List.nil_append, scanApps, if_pos hcond]
    exact scanApps_stay hle
  | cons x rest ih =>
    intro l2 m bs hlt hle ht hbs
    have hx : f x < f a := hlt x (by simp)
    simp only [List.cons_append, scanApps]
    split
    · exact ih (fun y hy => hlt y (by simp [hy])) hle ht hx
    · exact ih (fun y hy => hlt y (by simp [hy])) hle ht hbs

theorem scanApps_some {f : String → Nat} {t : Nat} :
    ∀ {l : List String} {x : String} {v : Nat},
      ∃ y, (scanApps f t l (some x) v).1 = some y ∧ (y ∈ l ∨ y = x) := by
  intro l
  induction l with
  | nil => intro x v; exact ⟨x, rfl, Or.inr rfl⟩
  | cons a rest ih =>
    intro x v
    simp only [scanApps]
    split
    · obtain ⟨y, hy, hmem⟩ := ih (x := a) (v := f a)
      refine ⟨y, hy, ?_⟩
      rcases hmem with h | h
      · exact Or.inl (by simp [h])
      · exact Or.inl (by simp [h])
    · obtain ⟨y, hy, hmem⟩ := ih (x := x) (v := v)
      refine ⟨y, hy, ?_⟩
      rcases hmem with h | h
      · exact Or.inl (by simp [h])
      · exact Or.inr h

/-! ## The exact-match score and the strict dominance of single-word exact
queries -/

/-- An app whose normalized name equals the (normalized) query scores exactly
the bonus/penalty-adjusted 1000. -/
theorem appScore_exact {fr : List Char → List Char → Nat} {qL : List Char} {app : String}
    (h : stripL (lowerL app.data) = qL) :
    appScore fr qL app = bonusPenalty 1000 qL.length := by
  unfold appScore baseScore
  rw [h, if_pos rfl]

/-- For a single-word query not occurring as a word of the app name, the
Priority-7 branch contributes at most 450. -/
theorem wordBranch_le {fr : List Char → List Char → Nat}
    (hfr : ∀ x y, fr x y ≤ 100) {qL aL : List Char}
    (hqw : wordsWS qL = [qL]) (h2 : qL ∉ wordsWS aL) :
    wordBranch fr qL aL ≤ 450 := by
  unfold wordBranch
  have hwm : wmCount (wordsWS qL) (wordsWS aL) = 0 := by
    rw [hqw]
    simp [wmCount, List.filter, h2]
  have hpm : pmCount (wordsWS qL) (wordsWS aL) ≤ 1 := by
    rw [hqw]
    unfold pmCount
    simp only [List.filter]
    split <;> simp
  rw [hwm]
  rw [if_neg (by omega)]
  have hfs := hfr qL aL
  split
  · omega
  · split <;> omega

/-- Key strict bound: for a single-word query, any app whose normalized name
differs from the normalized query scores strictly below the exact-match
score.  Requires only that the external fuzz ratio is bounded by 100. -/
theorem appScore_lt_exact {fr : List Char → List Char → Nat}
    (hfr : ∀ x y, fr x y ≤ 100) {qL : List Char}
    (hw : ∀ c ∈ qL, c.isWhitespace = false) {app : String}
    (hne : stripL (lowerL app.data) ≠ qL) :
    appScore fr qL app < bonusPenalty 1000 qL.length := by
  unfold appScore baseScore
  set aL := stripL (lowerL app.data) with haL
  have h1 : ¬(qL = aL) := fun h => hne h.symm
  rw [if_neg h1]
  by_cases h2 : qL ∈ wordsWS aL
  · rw [if_pos h2]
    exact bonusPenalty_lt_exact_big (by omega) (wordsWS_mem_length h2)
  rw [if_neg h2]
  by_cases h3 : startsL qL aL = true
  · rw [if_pos h3]
    have hlt : qL.length < aL.length := startsL_lt_of_ne h3 h1
    have hdiv : qL.length * 50 / aL.length ≤ 49 := by
      have := (Nat.div_lt_iff_lt_mul (by omega : 0 < aL.length)).mpr
        (by omega : qL.length * 50 < 50 * aL.length)
      omega
    exact bonusPenalty_lt_exact_big (by omega) (by omega)
  rw [if_neg h3]
  by_cases h4 : (wordsWS aL).any (fun w => startsL qL w) = true
  · rw [if_pos h4]
    obtain ⟨w, hw1, hw2⟩ := List.any_eq_true.mp h4
    have hq : qL.length ≤ w.length := startsL_length hw2
    have hwn : w.length ≤ aL.length := wordsWS_mem_length hw1
    exact bonusPenalty_lt_exact_big (by omega) (by omega)
  rw [if_neg h4]
  by_cases h5 : aL.length ≤ SHORT_APP_NAME_THRESHOLD ∧ inL aL qL = true
  · rw [if_pos h5]
    exact bonusPenalty_lt_exact_small (by omega)
  rw [if_neg h5]
  by_cases h6 : inL qL aL = true
  · rw [if_pos h6]
    have hlt : qL.length < aL.length := inL_lt_of_ne h6 h1
    have hdiv : qL.length * 100 / aL.length ≤ 99 := by
      have := (Nat.div_lt_iff_lt_mul (by omega : 0 < aL.length)).mpr
        (by omega : qL.length * 100 < 100 * aL.length)
      omega
    exact bonusPenalty_lt_exact_small (by omega)
  rw [if_neg h6]
  -- word-based branch: the single-word query has no exact word match here
  -- (that is branch 2), so at most one partial match or the fuzzy fallback
  have hqne : qL ≠ [] := by
    intro hnil
    rw [hnil] at h3
    exact h3 (startsL_nil aL)
  have hqwords : wordsWS qL = [qL] := wordsWS_single hqne hw
  exact bonusPenalty_lt_exact_small
    (Nat.le_trans (wordBranch_le hfr hqwords h2) (by omega))

/-- With an empty (stripped) query, every app hits the exact branch (for the
empty name) or the starts-with branch, scoring at least 810 after bonus and
penalty. -/
theorem appScore_empty_query (fr : List Char → List Char → Nat) (app : String) :
    810 ≤ appScore fr [] app := by
  unfold appScore
  by_cases h : stripL (lowerL app.data) = []
  · rw [h]
    rw [show baseScore fr [] [] = 1000 by simp [baseScore]]
    rw [bonusPenalty_exact_cases]
    norm_num
  · unfold baseScore
    rw [if_neg (fun heq => h heq.symm)]
    have h2 : ([] : List Char) ∉ wordsWS (stripL (lowerL app.data)) :=
      fun hm => (wordsWS_mem_ne_nil hm) rfl
    rw [if_neg h2, if_pos (startsL_nil _)]
    simp only [List.length_nil, Nat.zero_mul, Nat.zero_div, Nat.add_zero]
    unfold bonusPenalty bonused BONUS_APP_NAME_LENGTH PENALTY_APP_NAME_LENGTH
    split_ifs <;> omega

/-! ## Lemmas about the `/open` endpoint -/

theorem semFold_length :
    ∀ (cands : List (Nat × ℚ)) (arr : List ℚ),
      (cands.foldl (fun a c => if c.2 > a.getD c.1 (-1) then a.set c.1 c.2 else a)
        arr).length = arr.length := by
  intro cands
  induction cands with
  | nil => intro arr; rfl
  | cons c rest ih =>
    intro arr
    rw [List.foldl_cons, ih]
    split <;> simp

theorem itemSemMax_length (n : Nat) (cands : List (Nat × ℚ)) :
    (itemSemMax n cands).length = n := by
  unfold itemSemMax
  rw [semFold_length]
  exact List.length_replicate n (-1)

theorem itemScores_length (items : List Item) (cands : List (Nat × ℚ)) (query : String) :
    (itemScores items cands query).length = items.length := by
  unfold itemScores
  rw [List.length_map, List.length_zip, itemSemMax_length]
  exact Nat.min_self _

theorem semFold_getD :
    ∀ (cands : List (Nat × ℚ)) (arr : List ℚ) (i : Nat),
      (∀ c ∈ cands, c.1 < arr.length) →
      (cands.foldl (fun a c => if c.2 > a.getD c.1 (-1) then a.set c.1 c.2 else a)
          arr).getD i (-1) =
        ((cands.filter (fun c => c.1 = i)).map (fun c => c.2)).foldl
          (fun a s => if s > a then s else a) (arr.getD i (-1)) := by
  intro cands
  induction cands with
  | nil => intro arr i _; rfl
  | cons c rest ih =>
    intro arr i hin
    obtain ⟨j, s⟩ := c
    have hlen : (if s > arr.getD j (-1) then arr.set j s else arr).length = arr.length := by
      split <;> simp
    have hin' : ∀ x ∈ rest, x.1 < (if s > arr.getD j (-1) then arr.set j s else arr).length := by
      intro x hx
      rw [hlen]
      exact hin x (List.mem_cons_of_mem _ hx)
    by_cases hci : j = i
    · subst hci
      rw [List.filter_cons_of_pos (by simp), List.map_cons]
      simp only [List.foldl_cons]
      rw [ih _ j hin']
      congr 1
      by_cases hgt : s > arr.getD j (-1)
      · have hj : j < arr.length := hin (j, s) (List.mem_cons_self _ _)
        rw [if_pos hgt, if_pos hgt]
        simp [List.getD_eq_getElem?_getD, List.getElem?_set_self hj]
      · rw [if_neg hgt, if_neg hgt]
    · rw [List.filter_cons_of_neg (by simpa using hci)]
      simp only [List.foldl_cons]
      rw [ih _ i hin']
      congr 1
      by_cases hgt : s > arr.getD j (-1)
      · rw [if_pos hgt]
        simp [List.getD_eq_getElem?_getD, List.getElem?_set_ne hci]
      · rw [if_neg hgt]

theorem foldl_step_eq_max :
    ∀ (l : List ℚ) (a : ℚ),
      l.foldl (fun a s => if s > a then s else a) a = l.foldl max a := by
  intro l
  induction l with
  | nil => intro a; rfl
  | cons x xs ih =>
    intro a
    rw [List.foldl_cons, List.foldl_cons, ih]
    congr 1
    rcases lt_or_le a x with h | h
    · rw [if_pos h, max_eq_right h.le]
    · rw [if_neg (not_lt.mpr h), max_eq_left h]

theorem foldl_max_from_neg_one {x : ℚ} {xs : List ℚ} (h : -1 ≤ x) :
    (x :: xs).foldl max (-1) = maxQ (x :: xs) := by
  rw [List.foldl_cons]
  unfold maxQ
  rw [max_eq_right h]

theorem argmaxAux_lt {c : ℚ} :
    ∀ (l : List ℚ) (i bi : Nat) (bv : ℚ),
      bv < c → (∀ x ∈ l, x < c) → (argmaxAux l i bi bv).2 < c := by
  intro l
  induction l with
  | nil => intro i bi bv h _; exact h
  | cons x rest ih =>
    intro i bi bv h hall
    unfold argmaxAux
    split
    · exact ih _ _ _ (hall x (by simp)) (fun y hy => hall y (by simp [hy]))
    · exact ih _ _ _ h (fun y hy => hall y (by simp [hy]))

theorem itemScores_singleton (it : Item) (q : ℚ) (query : String) (h : -1 < q) :
    itemScores [it] [(0, q)] query = [combinedScore q query it] := by
  unfold itemScores itemSemMax
  simp only [List.length_cons, List.length_nil, Nat.zero_add, List.foldl_cons,
    List.foldl_nil, List.replicate]
  rw [if_pos (by simpa using h)]
  rfl

theorem normalize_name_ws {s : String} (h : ∀ c ∈ s.data, c.isWhitespace = true) :
    normalize_name s = "" := by
  unfold normalize_name
  rw [stripL_lowerL_all_ws h]
  rfl

/-! ## Lemmas about discovery -/

theorem dlookup_append {m l : List (String × String)} {k v : String}
    (h : dlookup m k = some v) : dlookup (m ++ l) k = some v := by
  induction m with
  | nil => simp [dlookup] at h
  | cons p rest ih =>
    unfold dlookup at h ⊢
    by_cases hp : p.1 = k
    · rw [List.find?_cons_of_pos _ (by simpa using hp)] at h
      rw [List.cons_append, List.find?_cons_of_pos _ (by simpa using hp)]
      exact h
    · rw [List.find?_cons_of_neg _ (by simpa using hp)] at h
      rw [List.cons_append, List.find?_cons_of_neg _ (by simpa using hp)]
      exact ih h

theorem winMethod3_preserves :
    ∀ (entries : List (String × String)) (apps : List (String × String)) (k v : String),
      dlookup apps k = some v → dlookup (winMethod3 entries apps) k = some v := by
  intro entries
  induction entries with
  | nil => intro apps k v h; exact h
  | cons e rest ih =>
    intro apps k v h
    simp only [winMethod3, List.foldl_cons]
    show dlookup (winMethod3 rest _) k = some v
    split
    · exact ih _ k v (dlookup_append h)
    · exact ih _ k v h

theorem dinsert_length_le (m : List (String × String)) (k v : String) :
    (dinsert m k v).length ≤ m.length + 1 := by
  unfold dinsert
  split
  · rw [List.length_map]; omega
  · rw [List.length_append]; simp

theorem foldl_guard_bound {α : Type} (f : List (String × String) → α → List (String × String))
    (hf : ∀ acc e, f acc e = acc ∨
      (acc.length < MAX_APPS_LIMIT ∧ (f acc e).length ≤ acc.length + 1)) :
    ∀ (l : List α) (acc : List (String × String)) (M : Nat),
      MAX_APPS_LIMIT ≤ M → acc.length ≤ M → (l.foldl f acc).length ≤ M := by
  intro l
  induction l with
  | nil => intro acc M _ h; exact h
  | cons e rest ih =>
    intro acc M hM h
    rw [List.foldl_cons]
    apply ih _ M hM
    rcases hf acc e with h1 | ⟨h2, h3⟩
    · rw [h1]; exact h
    · unfold MAX_APPS_LIMIT at h2
      unfold MAX_APPS_LIMIT at hM
      omega

theorem linuxBinPhase_bound :
    ∀ (bins : List (String × List (String × Bool))) (apps : List (String × String)) (M : Nat),
      MAX_APPS_LIMIT ≤ M → apps.length ≤ M → (linuxBinPhase bins apps).length ≤ M := by
  intro bins
  induction bins with
  | nil => intro apps M _ h; exact h
  | cons b rest ih =>
    intro apps M hM h
    simp only [linuxBinPhase, List.foldl_cons]
    show (linuxBinPhase rest _).length ≤ M
    apply ih _ M hM
    apply foldl_guard_bound _ _ b.2 apps M hM h
    intro acc e
    split
    · next hcond => exact Or.inr ⟨hcond.2.2, dinsert_length_le acc _ _⟩
    · exact Or.inl rfl

/-! ## Claim theorems -/

/-- C1, counterexample: the query `"a b c d e"` equals the first app's name
exactly, yet `find_app_fuzzy` does not return that app nor give it the
maximal score — the reordered app `"b a c d e"` collects five exact word
matches (600 + 5·100 + bonus = 1110) and beats the exact match (1010). -/
theorem C1_counterexample :
    "a b c d e" ∈ ["a b c d e", "b a c d e"] ∧
    find_app_fuzzy fr0 ["a b c d e", "b a c d e"] "a b c d e" FUZZY_THRESHOLD =
      some "b a c d e" ∧
    find_app_fuzzy fr0 ["a b c d e", "b a c d e"] "a b c d e" FUZZY_THRESHOLD ≠
      some "a b c d e" ∧
    appScore fr0 (stripL (lowerL "a b c d e".data)) "a b c d e" <
      appScore fr0 (stripL (lowerL "a b c d e".data)) "b a c d e" :=
  ⟨by decide, by decide, by decide, by decide⟩

/-- C1 (amended): for every app cache and every query that, after
lower-casing and trimming, is a SINGLE WORD (no internal whitespace) and
equals the normalized name of some app in the cache, `find_app_fuzzy` (at the
default threshold 40, for any fuzz ratio bounded by 100) returns an app whose
normalized name equals the query, and that app's score is maximal among all
apps — including when the exact name is long enough to receive the long-name
penalty and other apps receive the short-name bonus.  (The unrestricted
claim is refuted by `C1_counterexample`: a multi-word query can lose to a
reordering of its words.) -/
theorem C1_amended_single_word_exact_wins (fr : List Char → List Char → Nat)
    (hfr : ∀ x y, fr x y ≤ 100) (cache : List String) (query a : String)
    (ha : a ∈ cache) (heq : stripL (lowerL a.data) = stripL (lowerL query.data))
    (hw : ∀ c ∈ stripL (lowerL query.data), c.isWhitespace = false) :
    ∃ b ∈ cache, find_app_fuzzy fr cache query FUZZY_THRESHOLD = some b ∧
      stripL (lowerL b.data) = stripL (lowerL query.data) ∧
      ∀ x ∈ cache, appScore fr (stripL (lowerL query.data)) x ≤
        appScore fr (stripL (lowerL query.data)) b := by
  have hle : ∀ x ∈ cache, appScore fr (stripL (lowerL query.data)) x ≤
      bonusPenalty 1000 (stripL (lowerL query.data)).length := by
    intro x hx
    by_cases hx2 : stripL (lowerL x.data) = stripL (lowerL query.data)
    · exact Nat.le_of_eq (appScore_exact hx2)
    · exact Nat.le_of_lt (appScore_lt_exact hfr hw hx2)
  have hexa : appScore fr (stripL (lowerL query.data)) a =
      bonusPenalty 1000 (stripL (lowerL query.data)).length := appScore_exact heq
  have hcne : cache ≠ [] := List.ne_nil_of_mem ha
  have h900 := bonusPenalty_exact_ge (stripL (lowerL query.data)).length
  obtain ⟨b, hb, hfb, hscan⟩ :=
    scanApps_reach (f := appScore fr (stripL (lowerL query.data)))
      (t := FUZZY_THRESHOLD) (l := cache) (m := none) (v := 0)
      hle (by unfold FUZZY_THRESHOLD; omega) (by omega) ⟨a, ha, hexa⟩
  refine ⟨b, hb, ?_, ?_, ?_⟩
  · unfold find_app_fuzzy
    rw [if_neg hcne, hscan]
  · by_contra hbx
    have hlt := appScore_lt_exact hfr hw hbx
    omega
  · intro x hx
    rw [hfb]
    exact hle x hx

/-- Witness for C1 (amended) at a concrete cache and query. -/
theorem C1_witness :
    ∃ b ∈ ["notepad", "firefox"],
      find_app_fuzzy fr0 ["notepad", "firefox"] "Firefox " FUZZY_THRESHOLD = some b ∧
      stripL (lowerL b.data) = stripL (lowerL "Firefox ".data) ∧
      ∀ x ∈ ["notepad", "firefox"],
        appScore fr0 (stripL (lowerL "Firefox ".data)) x ≤
          appScore fr0 (stripL (lowerL "Firefox ".data)) b :=
  C1_amended_single_word_exact_wins fr0 (fun _ _ => Nat.zero_le 100)
    ["notepad", "firefox"] "Firefox " "firefox" (by decide) (by decide) (by decide)

/-- C2, counterexample: the apps `"zz abc"` and `"y abd"` tie at score 860
for the query `"ab"`, the second one is strictly shorter, yet the first
(longer) one is returned — name length is NOT used to break ties. -/
theorem C2_counterexample :
    appScore fr0 (stripL (lowerL "ab".data)) "zz abc" =
      appScore fr0 (stripL (lowerL "ab".data)) "y abd" ∧
    "y abd".length < "zz abc".length ∧
    find_app_fuzzy fr0 ["zz abc", "y abd"] "ab" FUZZY_THRESHOLD = some "zz abc" :=
  ⟨by decide, by decide, by decide⟩

/-- C2 (amended): when two or more apps attain the same highest accepted
score, the tie is broken by discovery (iteration) order alone — the
first-discovered app attaining the score is returned; the app-name length
plays no role.  (The claimed shortest-length tie-break is refuted by
`C2_counterexample`.) -/
theorem C2_amended_tie_first_discovered (fr : List Char → List Char → Nat)
    (l1 l2 : List String) (a : String) (query : String) (t : Nat)
    (hmax1 : ∀ x ∈ l1, appScore fr (stripL (lowerL query.data)) x ≤
      appScore fr (stripL (lowerL query.data)) a)
    (hne1 : ∀ x ∈ l1, appScore fr (stripL (lowerL query.data)) x ≠
      appScore fr (stripL (lowerL query.data)) a)
    (hmax2 : ∀ x ∈ l2, appScore fr (stripL (lowerL query.data)) x ≤
      appScore fr (stripL (lowerL query.data)) a)
    (ht : t ≤ appScore fr (stripL (lowerL query.data)) a)
    (h0 : 0 < appScore fr (stripL (lowerL query.data)) a) :
    find_app_fuzzy fr (l1 ++ a :: l2) query t = some a := by
  unfold find_app_fuzzy
  rw [if_neg (by simp)]
  rw [scanApps_first (fun x hx => Nat.lt_of_le_of_ne (hmax1 x hx) (hne1 x hx))
    hmax2 ht h0]

/-- Witness for C2 (amended): a three-app cache in which the second and third
apps tie at the maximal score and the second (first-discovered, though
longer) wins. -/
theorem C2_witness :
    find_app_fuzzy fr0 (["qqq"] ++ "zz abc" :: ["y abd"]) "ab" 40 = some "zz abc" :=
  C2_amended_tie_first_discovered fr0 ["qqq"] ["y abd"] "zz abc" "ab" 40
    (by decide) (by decide) (by decide) (by decide) (by decide)

/-- C3: whenever every candidate's score is below the acceptance threshold,
no match is reported: `find_app_fuzzy` returns `None` when every app scores
below the threshold, and the `/open` endpoint answers
404 "No matching app or folder found" when every combined score is below
`SEMANTIC_THRESHOLD` (0.30). -/
theorem C3_no_match_below_threshold :
    (∀ (fr : List Char → List Char → Nat) (cache : List String) (query : String) (t : Nat),
      (∀ x ∈ cache, appScore fr (stripL (lowerL query.data)) x < t) →
      find_app_fuzzy fr cache query t = none) ∧
    (∀ (items : List Item) (cands : List (Nat × ℚ)) (text : String),
      items ≠ [] → normalize_name text ≠ "" →
      (∀ s ∈ itemScores items cands (normalize_name text), s < SEMANTIC_THRESHOLD) →
      openSelect items cands text = .error (404, "No matching app or folder found")) := by
  constructor
  · intro fr cache query t hlt
    unfold find_app_fuzzy
    by_cases hc : cache = []
    · rw [if_pos hc]
    · rw [if_neg hc, scanApps_skip_all hlt]
  · intro items cands text hne hq hall
    unfold openSelect
    rw [if_neg hq]
    have hlen := itemScores_length items cands (normalize_name text)
    have hscne : itemScores items cands (normalize_name text) ≠ [] := by
      intro h
      rw [h] at hlen
      exact hne (List.length_eq_zero.mp hlen.symm)
    obtain ⟨s, rest, hs⟩ := List.exists_cons_of_ne_nil hscne
    rw [hs]
    have hslt : s < SEMANTIC_THRESHOLD :=
      hall s (by rw [hs]; exact List.mem_cons_self _ _)
    have hargl : (argmaxAux rest 1 0 s).2 < SEMANTIC_THRESHOLD :=
      argmaxAux_lt rest 1 0 s hslt
        (fun x hx => hall x (by rw [hs]; exact List.mem_cons_of_mem _ hx))
    show (if (argmaxAux rest 1 0 s).2 < SEMANTIC_THRESHOLD then
        Except.error (404, "No matching app or folder found")
      else Except.ok (argmaxAux rest 1 0 s)) =
        Except.error (404, "No matching app or folder found")
    rw [if_pos hargl]

/-- Witness for C3 at concrete inputs: a cache whose only app scores 0 for
the query, and an item list whose only combined score is 0.65·0.25 < 0.30. -/
theorem C3_witness :
    find_app_fuzzy fr0 ["xyz"] "ab" 40 = none ∧
    openSelect [⟨"x", "p", "app", ""⟩] [(0, 1/4)] "qq" =
      .error (404, "No matching app or folder found") := by
  refine ⟨C3_no_match_below_threshold.1 fr0 ["xyz"] "ab" 40 (by decide),
    C3_no_match_below_threshold.2 [⟨"x", "p", "app", ""⟩] [(0, 1/4)] "qq"
      (by simp) (by decide) ?_⟩
  rw [itemScores_singleton _ _ _ (by norm_num)]
  intro s hs
  simp only [List.mem_singleton] at hs
  subst hs
  unfold combinedScore
  rw [if_pos (by norm_num)]
  have hj : jaccardQ (normalize_name "qq") ⟨"x", "p", "app", ""⟩ = 0 := by
    unfold jaccardQ
    rw [if_pos (by decide)]
    norm_num [show interCard (tokens_of (Item.name ⟨"x", "p", "app", ""⟩))
      (tokens_of (normalize_name "qq")) = 0 from by decide]
  have hsub : substringInd (normalize_name "qq") ⟨"x", "p", "app", ""⟩ = 0 := by
    unfold substringInd
    rw [if_neg (by decide)]
  have hex : exactInd (normalize_name "qq") ⟨"x", "p", "app", ""⟩ = 0 := by
    unfold exactInd
    rw [if_neg (by decide)]
  rw [hj, hsub, hex]
  unfold wSemantic wJaccard wSubstring wExact SEMANTIC_THRESHOLD
  norm_num

/-- C4, counterexample: when the maximum cosine similarity of an item's
aliases is negative (here −1/2), the endpoint's score is NOT the claimed
weighted sum — launcher.py line 207 floors the semantic term at 0, so the
computed score is 0 while the claimed formula gives −13/40. -/
theorem C4_counterexample :
    (itemScores [⟨"x", "p", "app", ""⟩] [(0, -1/2)] "q")[0]? ≠
      some (claimScore [-1/2] "q" ⟨"x", "p", "app", ""⟩) := by
  rw [itemScores_singleton _ _ _ (by norm_num)]
  have hj : jaccardQ "q" ⟨"x", "p", "app", ""⟩ = 0 := by
    unfold jaccardQ
    rw [if_pos (by decide)]
    norm_num [show interCard (tokens_of (Item.name ⟨"x", "p", "app", ""⟩))
      (tokens_of "q") = 0 from by decide]
  have hsub : substringInd "q" ⟨"x", "p", "app", ""⟩ = 0 := by
    unfold substringInd
    rw [if_neg (by decide)]
  have hex : exactInd "q" ⟨"x", "p", "app", ""⟩ = 0 := by
    unfold exactInd
    rw [if_neg (by decide)]
  have hL : combinedScore (-1/2) "q" ⟨"x", "p", "app", ""⟩ = 0 := by
    unfold combinedScore
    rw [if_neg (by norm_num), hj, hsub, hex]
    norm_num
  have hR : claimScore [-1/2] "q" ⟨"x", "p", "app", ""⟩ = -13/40 := by
    unfold claimScore maxQ
    rw [hj, hsub, hex]
    unfold wSemantic wJaccard wSubstring wExact
    norm_num
  rw [List.getElem?_cons_zero, hL, hR]
  intro h
  have := Option.some.inj h
  norm_num at this

/-- C4 (amended): when semantic scoring is enabled, the final score of each
item equals 0.65 × max(0, maximum cosine similarity between the query
embedding and that item's alias embeddings) + 0.20 × Jaccard token overlap +
0.10 × substring indicator + 0.05 × exact indicator.  (The floor at 0 on the
semantic maximum is forced by `C4_counterexample`; for a non-negative
maximum this is exactly the claimed formula.) -/
theorem C4_amended_weighted_sum_clipped (items : List Item) (cands : List (Nat × ℚ))
    (query : String) (i : Nat) (it : Item) (hit : items[i]? = some it)
    (hin : ∀ c ∈ cands, c.1 < items.length)
    (hneg : ∀ c ∈ cands, -1 ≤ c.2)
    (hex : ∃ c ∈ cands, c.1 = i) :
    (itemScores items cands query)[i]? =
      some (claimScoreClipped ((cands.filter (fun c => c.1 = i)).map (fun c => c.2))
        query it) := by
  obtain ⟨hi, hgeti⟩ := List.getElem?_eq_some_iff.mp hit
  have hsm₀ : (itemSemMax items.length cands).getD i (-1) =
      ((cands.filter (fun c => c.1 = i)).map (fun c => c.2)).foldl
        (fun a s => if s > a then s else a)
        ((List.replicate items.length (-1 : ℚ)).getD i (-1)) := by
    unfold itemSemMax
    exact semFold_getD cands _ i (by intro c hc; simpa using hin c hc)
  have hrep : (List.replicate items.length (-1 : ℚ)).getD i (-1) = -1 := by
    rw [List.getD_eq_getElem?_getD,
      List.getElem?_eq_getElem (by simpa using hi), List.getElem_replicate]
    rfl
  obtain ⟨c0, hc0, hc0i⟩ := hex
  have hmem0 : c0.2 ∈ (cands.filter (fun c => c.1 = i)).map (fun c => c.2) :=
    List.mem_map_of_mem _ (List.mem_filter.mpr ⟨hc0, by simpa using hc0i⟩)
  obtain ⟨x, xs, hxs⟩ :=
    List.exists_cons_of_ne_nil (List.ne_nil_of_mem hmem0)
  have hxneg : -1 ≤ x := by
    have hx : x ∈ (cands.filter (fun c => c.1 = i)).map (fun c => c.2) := by
      rw [hxs]; exact List.mem_cons_self _ _
    obtain ⟨c, hc, rfl⟩ := List.mem_map.mp hx
    exact hneg c (List.mem_filter.mp hc).1
  have hsm : (itemSemMax items.length cands).getD i (-1) =
      maxQ ((cands.filter (fun c => c.1 = i)).map (fun c => c.2)) := by
    rw [hsm₀, hrep, hxs, foldl_step_eq_max, foldl_max_from_neg_one hxneg]
  have hsml := itemSemMax_length items.length cands
  have hi2 : i < (itemSemMax items.length cands).length := by rw [hsml]; exact hi
  have hzl : i < (items.zip (itemSemMax items.length cands)).length := by
    rw [List.length_zip, hsml]
    simpa [Nat.min_self] using hi
  have hsd : (itemSemMax items.length cands).getD i (-1) =
      (itemSemMax items.length cands)[i] := by
    rw [List.getD_eq_getElem?_getD, List.getElem?_eq_getElem hi2]
    rfl
  unfold itemScores
  rw [List.getElem?_map, List.getElem?_eq_getElem hzl]
  simp only [List.getElem_zip, Option.map_some']
  rw [hgeti]
  have hm : (itemSemMax items.length cands)[i] =
      maxQ ((cands.filter (fun c => c.1 = i)).map (fun c => c.2)) := by
    rw [← hsd, hsm]
  rw [hm]
  unfold combinedScore claimScoreClipped
  congr 2
  rcases le_or_lt 0 (maxQ ((cands.filter (fun c => c.1 = i)).map (fun c => c.2)))
    with h0 | h0
  · rw [if_pos h0, max_eq_left h0]
  · rw [if_neg (not_le.mpr h0), max_eq_right h0.le]

/-- Witness for C4 (amended) at a single concrete item with one alias
similarity of 1/2. -/
theorem C4_witness :
    (itemScores [⟨"x", "p", "app", ""⟩] [(0, 1/2)] "q")[0]? =
      some (claimScoreClipped
        (((([(0, (1/2 : ℚ))]).filter (fun c => c.1 = 0)).map (fun c => c.2)))
        "q" ⟨"x", "p", "app", ""⟩) :=
  C4_amended_weighted_sum_clipped [⟨"x", "p", "app", ""⟩] [(0, 1/2)] "q" 0
    ⟨"x", "p", "app", ""⟩ rfl (by decide)
    (by intro c hc; simp only [List.mem_singleton] at hc; subst hc; norm_num)
    ⟨(0, 1/2), List.mem_cons_self _ _, rfl⟩

/-- C5: for every environment, every platform and every input name,
`launch_app` returns a boolean; a success result of the inner body is passed
through, any exception escaping the inner body is surfaced as `False` by the
outer handler rather than propagating; and the Linux launcher's loop returns
`False` (not an exception) when every launch method is exhausted — each
command either exits non-zero or raises one of the two caught exception
classes. -/
theorem C5_launch_failure_surfaced :
    (∀ (env : LaunchEnv) (name : String),
      (launch_app env name = true ∨ launch_app env name = false) ∧
      (∀ e, launch_app_inner env name = .error e → launch_app env name = false) ∧
      (∀ b, launch_app_inner env name = .ok b → launch_app env name = b)) ∧
    (∀ (run : List String → Except PyExc Int) (cmds : List (List String)),
      (∀ c ∈ cmds, ∀ rc, run c = .ok rc → rc ≠ 0) →
      (∀ c ∈ cmds, ∀ e, run c = .error e →
        e = PyExc.timeoutExpired ∨ e = PyExc.osError) →
      launch_linux_cmds run cmds = .ok false) := by
  constructor
  · intro env name
    refine ⟨?_, ?_, ?_⟩
    · cases launch_app env name
      · exact Or.inr rfl
      · exact Or.inl rfl
    · intro e he
      unfold launch_app
      rw [he]
    · intro b hb
      unfold launch_app
      rw [hb]
  · intro run cmds
    induction cmds with
    | nil => intro _ _; rfl
    | cons c rest ih =>
      intro h1 h2
      have ih' := ih (fun x hx rc h => h1 x (List.mem_cons_of_mem _ hx) rc h)
        (fun x hx e h => h2 x (List.mem_cons_of_mem _ hx) e h)
      cases hr : run c with
      | ok rc =>
        have hne := h1 c (List.mem_cons_self _ _) rc hr
        simp only [launch_linux_cmds, hr]
        rw [if_neg (by simpa using hne)]
        exact ih'
      | error e =>
        rcases h2 c (List.mem_cons_self _ _) e hr with h | h <;> subst h <;>
          simp only [launch_linux_cmds, hr] <;> exact ih'

/-- Witness for C5: in the all-failing Linux environment the app launch
returns `False`, and an exhausted command list returns `Except.ok false`. -/
theorem C5_witness :
    launch_app envFail "someapp" = false ∧
    launch_linux_cmds (fun _ => Except.error PyExc.osError)
      [["gtk-launch", "x"], ["x"]] = .ok false := by
  constructor
  · exact (C5_launch_failure_surfaced.1 envFail "someapp").2.2 false rfl
  · exact C5_launch_failure_surfaced.2 (fun _ => Except.error PyExc.osError)
      [["gtk-launch", "x"], ["x"]]
      (fun c _ rc h => absurd h (by simp))
      (fun c _ e h => Or.inr (Except.error.inj h).symm)

/-- C6: within one Windows discovery pass, a name already bound by the
structured PowerShell sources (Methods 1 and 2) is never replaced by the
Start Menu shortcut fallback (Method 3) — the fallback only adds names not
already present, so every earlier binding survives to the final map.  (The
later structured source, Method 2, is the explicitly prioritized one and may
overwrite Method 1.) -/
theorem C6_shortcut_fallback_preserves (m1 m2 m3 : List (String × String))
    (k v : String)
    (h : dlookup (winMethod2 m2 (winMethod1 m1 [])) k = some v) :
    dlookup (discover_windows_apps m1 m2 m3) k = some v := by
  unfold discover_windows_apps
  exact winMethod3_preserves m3 _ k v h

/-- Witness for C6: the structured binding of "app" survives a shortcut
entry with the same name. -/
theorem C6_witness :
    dlookup (discover_windows_apps [("App", "id1")] []
      [("App", "C:/Start Menu/App.lnk")]) "app" = some "appid:id1" :=
  C6_shortcut_fallback_preserves [("App", "id1")] []
    [("App", "C:/Start Menu/App.lnk")] "app" "appid:id1" (by decide)

/-- C7: the `/open` endpoint rejects a request whose text is empty or
whitespace-only with 400 "Empty request" before any scoring is performed —
the normalized query is empty, the guard fires first, and neither scoring
nor launching is reached. -/
theorem C7_empty_request_rejected (items : List Item) (cands : List (Nat × ℚ))
    (text : String)
    (h : text = "" ∨ ∀ c ∈ text.data, c.isWhitespace = true) :
    openSelect items cands text = .error (400, "Empty request") := by
  have hq : normalize_name text = "" := by
    rcases h with h | h
    · subst h; rfl
    · exact normalize_name_ws h
  unfold openSelect
  rw [if_pos hq]

/-- Witness for C7 on a whitespace-only request. -/
theorem C7_witness :
    openSelect [⟨"x", "p", "app", ""⟩] [(0, 1/2)] "   " =
      .error (400, "Empty request") :=
  C7_empty_request_rejected [⟨"x", "p", "app", ""⟩] [(0, 1/2)] "   "
    (Or.inr (by decide))

/-- C8: for every filesystem state, the Linux bin scan adds entries only
while the accumulated app map holds fewer than `MAX_APPS_LIMIT` (50)
entries, so the discovery result never exceeds the desktop-phase size or the
cap, whichever is larger — the bin scan's contribution is bounded by 50. -/
theorem C8_bin_scan_bounded (dirs : List (String × List String))
    (bins : List (String × List (String × Bool))) :
    (discover_linux_apps dirs bins).length ≤
      max (linuxDesktopPhase dirs).length MAX_APPS_LIMIT := by
  unfold discover_linux_apps
  exact linuxBinPhase_bound bins _ _ (le_max_right _ _) (le_max_left _ _)

/-- C9: scoring is deterministic — the embedding of `find_app_fuzzy` is a
pure function of the cache, the query, the threshold and the (fixed)
external fuzz ratio, and the cache iteration order is the fixed insertion
order of the dictionary, so two calls on identical inputs return identical
results. -/
theorem C9_deterministic (fr : List Char → List Char → Nat) (cache : List String)
    (query : String) (t : Nat) :
    find_app_fuzzy fr cache query t = find_app_fuzzy fr cache query t := rfl

/-- C10: for every non-empty app cache, an empty or whitespace-only query is
NOT rejected by `find_app_fuzzy`: after stripping, the empty query makes the
starts-with branch (or, for an empty app name, the exact branch) fire for
every app with a score of at least 810, which clears the default threshold
40, so some app is returned rather than `None`. -/
theorem C10_empty_query_matches (fr : List Char → List Char → Nat)
    (cache : List String) (query : String) (hne : cache ≠ [])
    (hws : ∀ c ∈ query.data, c.isWhitespace = true) :
    ∃ a ∈ cache, find_app_fuzzy fr cache query FUZZY_THRESHOLD = some a := by
  have hq : stripL (lowerL query.data) = [] := stripL_lowerL_all_ws hws
  obtain ⟨a, rest, rfl⟩ := List.exists_cons_of_ne_nil hne
  unfold find_app_fuzzy
  rw [if_neg (by simp), hq]
  have ha := appScore_empty_query fr a
  simp only [scanApps]
  rw [if_pos (by unfold FUZZY_THRESHOLD; omega)]
  obtain ⟨y, hy, hmem⟩ := scanApps_some (f := appScore fr []) (t := FUZZY_THRESHOLD)
    (l := rest) (x := a) (v := appScore fr [] a)
  refine ⟨y, ?_, hy⟩
  rcases hmem with h | h
  · exact List.mem_cons_of_mem a h
  · rw [h]
    exact List.mem_cons_self a rest

/-- Witness for C10: a one-app cache and a whitespace query. -/
theorem C10_witness :
    ∃ a ∈ ["foo"], find_app_fuzzy fr0 ["foo"] " " FUZZY_THRESHOLD = some a :=
  C10_empty_query_matches fr0 ["foo"] " " (by simp) (by decide)

end Vaakya
